import Mathlib

/-!
Verification of the NxOgre `Path` class (`build/source/NxOgrePath.h`).

The repository ships only the class declaration; the member function bodies
are not part of the source tree. Every operation below is therefore
modelled from the specification (its parser algorithm in §4.1, the `..`
resolver in §4.2, the composition operators in §4.3, the formatter in §4.4
and the accessors in §4.5), over lists of characters.
-/

namespace NxOgre

/-- Strings are modelled as lists of characters. -/
abbrev Str := List Char

/-- Coerce a Lean string literal to the character-list model. -/
def str (s : String) : Str := s.toList

/-- Modelled from the spec (§4.1 step 1): find the first occurrence of
`://`; return the prefix before it and the suffix after it, or `none`
when the delimiter does not occur. -/
def splitProto : Str → Option (Str × Str)
  | [] => none
  | c :: rest =>
    if c = ':' ∧ rest.take 2 = ['/', '/'] then some ([], rest.drop 2)
    else (splitProto rest).map (fun pr => (c :: pr.1, pr.2))

/-- Modelled from the spec (§4.1 steps 3 and 4): split at the LAST
occurrence of a character, returning the part before and after it. -/
def splitLastCh (ch : Char) : Str → Option (Str × Str)
  | [] => none
  | c :: rest =>
    match splitLastCh ch rest with
    | some pr => some (c :: pr.1, pr.2)
    | none => if c = ch then some ([], rest) else none

/-- Modelled from the spec (§4.1 step 2): detect a leading drive token,
a single alphabetic character followed by `:`. -/
def splitDrive : Str → Option (Char × Str)
  | [] => none
  | [_] => none
  | c :: c2 :: rest => if c2 = ':' ∧ c.isAlpha then some (c, rest) else none

/-- Modelled from the spec (§4.1 step 4): split a string on `/`.
The result is always non-empty; a trailing `/` yields a final empty token. -/
def splitSlash : Str → List Str
  | [] => [[]]
  | c :: rest =>
    if c = '/' then [] :: splitSlash rest
    else
      match splitSlash rest with
      | [] => [[c]]
      | t :: ts => (c :: t) :: ts

/-- Does the string begin with `/`? (spec §4.1 step 5). -/
def headIsSlash : Str → Bool
  | [] => false
  | c :: _ => c = '/'

/-- Modelled from the spec (§4.2): one step of `..` resolution. An empty
segment is collapsed (§3), a `..` pops the last accepted directory when
one exists and is otherwise discarded, and any other token is accepted. -/
def resolveStep (acc : List Str) (t : Str) : List Str :=
  if t = [] then acc
  else if t = ['.', '.'] then acc.dropLast
  else acc ++ [t]

/-- Modelled from the spec (§4.2): scan directory tokens left to right,
resolving each against the growing sequence. -/
def resolve (acc : List Str) (ts : List Str) : List Str :=
  ts.foldl resolveStep acc

/-- The structured components of a path (spec §3). The `extension` is a
substring of `filename` determined by it, so it is kept derived
(`Path.getExtension`) rather than duplicated as a field. -/
structure Path where
  protocol : Str
  drive : Option Char
  directories : List Str
  filename : Str
  portion : Str
  absolute : Bool
deriving DecidableEq, Repr

/-- The default protocol (spec §4.1 step 1). -/
def fileProto : Str := str "file"

/-- Modelled from the spec (§7): the frozen invalid/empty path sentinel:
protocol empty-marker, all fields empty, not absolute. -/
def BAD_PATH : Path := ⟨[], none, [], [], [], false⟩

/-- Modelled from the spec (§4.1 step 1): the protocol and the remainder,
with the `file` default applied when no `://` is present. -/
def protoSplit (s : Str) : Str × Str :=
  match splitProto s with
  | some pr => pr
  | none => (fileProto, s)

/-- Modelled from the spec (§4.1 step 2): the optional drive and the
remainder. -/
def driveSplit (s : Str) : Option Char × Str :=
  match splitDrive s with
  | some pr => (some pr.1, pr.2)
  | none => (none, s)

/-- Modelled from the spec (§4.1 step 3): the remainder and the portion,
split at the last `#`. -/
def hashSplit (s : Str) : Str × Str :=
  match splitLastCh '#' s with
  | some pr => pr
  | none => (s, [])

/-- Modelled from the spec (§4.1 step 4): the final non-empty token, when
it is not `.` or `..`, is the filename; all other tokens are directory
tokens. -/
def dirTokensAndFile (tokens : List Str) : List Str × Str :=
  let last := tokens.getLastD []
  if last = [] ∨ last = ['.'] ∨ last = ['.', '.'] then (tokens, [])
  else (tokens.dropLast, last)

/-- Modelled from the spec (§3): the extension is the substring of the
filename after its last `.`, empty when there is none. -/
def extOf (fn : Str) : Str :=
  match splitLastCh '.' fn with
  | some pr => pr.2
  | none => []

/-- Modelled from the spec (§4.1, `Path::set`): parse a raw string into
components. The empty string yields the `BAD_PATH` sentinel (§4.1 edge
cases); otherwise the protocol, drive, portion and slash-separated tokens
are split off in order, the final token becomes the filename when
eligible, and directory tokens are `..`-resolved per §4.2. A path is
absolute when it has a drive or the post-protocol text begins with `/`. -/
def parse (s : Str) : Path :=
  if s = [] then BAD_PATH
  else
    let pr := protoSplit s
    let dr := driveSplit pr.2
    let hs := hashSplit dr.2
    let df := dirTokensAndFile (splitSlash hs.1)
    ⟨pr.1, dr.1, resolve [] df.1, df.2, hs.2, dr.1.isSome || headIsSlash pr.2⟩

/-- Each directory emitted with a trailing `/` (spec §6 grammar:
`directory := token "/"`). -/
def dirsString (l : List Str) : Str :=
  l.foldr (fun d acc => d ++ '/' :: acc) []

/-- The drive emitted as `X:` when present (spec §6 grammar). -/
def driveString : Option Char → Str
  | some d => [d, ':']
  | none => []

/-- The root `/` of an absolute path (spec §6 grammar and the
`file:///home/...` example). -/
def absString (b : Bool) : Str := if b then ['/'] else []

/-- The `#portion` suffix when a portion is present (spec §4.4). -/
def portionString (s : Str) : Str := if s = [] then [] else '#' :: s

/-- Modelled from the spec (§4.4, `Path::getString`): protocol, `://`,
the drive with its `:` when present, a root `/` when the path is
absolute, each directory with a trailing `/`, the filename, and
`#portion` when a portion is present. -/
def Path.getString (p : Path) : Str :=
  p.protocol ++ ':' :: '/' :: '/' ::
    (driveString p.drive ++ absString p.absolute ++
     dirsString p.directories ++ p.filename ++ portionString p.portion)

/-- Modelled from the spec (§4.4, `Path::getOSString`): as `getString`
but omitting protocol and portion. -/
def Path.getOSString (p : Path) : Str :=
  driveString p.drive ++ absString p.absolute ++
    dirsString p.directories ++ p.filename

/-- Modelled from the spec (§4.3): `a / b` keeps `a`'s protocol, drive
and absolute flag; its directories are `a`'s directories followed by
`a`'s filename demoted to a directory entry (when present) and `b`'s
directories, each resolved per §4.2 against the growing sequence; the
filename and portion come from `b`. -/
def join (a b : Path) : Path :=
  ⟨a.protocol, a.drive,
   resolve a.directories
     ((if a.filename = [] then [] else [a.filename]) ++ b.directories),
   b.filename, b.portion, a.absolute⟩

/-- Modelled from the source declaration `Path operator/(const Path&)`
and spec §4.3. -/
def opDivPath (a b : Path) : Path := join a b

/-- Modelled from the source declaration `Path operator/(const String&)`
and spec §4.3: the raw string is parsed and joined. -/
def opDivStr (a : Path) (s : Str) : Path := join a (parse s)

/-- Modelled from the source declaration `Path operator/(const char*)`:
the C string carries the same textual content as the `String` overload. -/
def opDivCStr (a : Path) (s : Str) : Path := join a (parse s)

/-- Modelled from the source declaration `Path& operator/=(const Path&)`
and spec §4.3: the same computation as `/`, replacing the receiver's
state; the returned value is the receiver's new state. -/
def opDivAssignPath (a b : Path) : Path :=
  ⟨a.protocol, a.drive,
   resolve a.directories
     ((if a.filename = [] then [] else [a.filename]) ++ b.directories),
   b.filename, b.portion, a.absolute⟩

/-- Modelled from the source declaration `Path& operator/=(const String&)`
and spec §4.3. -/
def opDivAssignStr (a : Path) (s : Str) : Path := opDivAssignPath a (parse s)

/-- Modelled from the source declaration `Path& operator/=(const char*)`. -/
def opDivAssignCStr (a : Path) (s : Str) : Path := opDivAssignPath a (parse s)

/-- Modelled from the spec (§4.4, `Path::getParent`): drop the portion if
one is present (the parent of an archive entry is the file), else drop
the filename, else drop the last directory (the one-directory case of the
spec, whose parent is the drive, coincides with dropping that
directory). -/
def Path.getParent (p : Path) : Path :=
  if p.portion ≠ [] then { p with portion := [] }
  else if p.filename ≠ [] then { p with filename := [] }
  else if p.directories.length = 1 then { p with directories := [] }
  else { p with directories := p.directories.dropLast }

/-- Accessor `Path::getFilename` (spec §4.5). -/
def Path.getFilename (p : Path) : Str := p.filename

/-- Accessor `Path::getFilenameOnly` (spec §3): the filename without its
extension. -/
def Path.getFilenameOnly (p : Path) : Str :=
  match splitLastCh '.' p.filename with
  | some pr => pr.1
  | none => p.filename

/-- Accessor `Path::getExtension` (spec §3). -/
def Path.getExtension (p : Path) : Str := extOf p.filename

/-- Accessor `Path::getPortion` (spec §4.5). -/
def Path.getPortion (p : Path) : Str := p.portion

/-- Accessor `Path::getProtocol` (spec §4.5). -/
def Path.getProtocol (p : Path) : Str := p.protocol

/-- Accessor `Path::getDrive` (spec §4.5, platform builds with drive
letters). -/
def Path.getDrive (p : Path) : Option Char := p.drive

/-- Accessor `Path::isAbsolute` (spec §4.5). -/
def Path.isAbsolute (p : Path) : Bool := p.absolute

/-- Accessor `Path::hasFilename` (spec §4.5). -/
def Path.hasFilename (p : Path) : Bool := p.filename ≠ []

/-- Accessor `Path::hasExtension` (spec §4.5). -/
def Path.hasExtension (p : Path) : Bool := p.getExtension ≠ []

/-- Accessor `Path::hasPortion` (spec §4.5). -/
def Path.hasPortion (p : Path) : Bool := p.portion ≠ []

/-- Accessor `Path::hasDrive` (spec §4.5). -/
def Path.hasDrive (p : Path) : Bool := p.drive.isSome

/-- Accessor `Path::getNbDirectories` (spec §4.5): the count of directory
entries. -/
def Path.getNbDirectories (p : Path) : Nat := p.directories.length

/-- Modelled from the spec (§4.5, §7, `Path::getDirectory`): the
directory name at depth `n` counted from the leaf end (0 = innermost);
out-of-range access signals a defined error, modelled as `none`. -/
def Path.getDirectory (p : Path) (n : Nat) : Option Str :=
  p.directories.reverse.get? n

/-- A well-formed path component: non-empty, free of the delimiters the
parser splits on, and not a `.`/`..` token. -/
def dirOk (t : Str) : Prop :=
  t ≠ [] ∧ '/' ∉ t ∧ '#' ∉ t ∧ ':' ∉ t ∧ t ≠ ['.'] ∧ t ≠ ['.', '.']

instance : DecidablePred dirOk := fun t => by unfold dirOk; infer_instance

/-- A well-formed `Path`: its components are free of the delimiter
characters that give them their positions in the formatted string, its
drive (when present) is a single alphabetic letter, and a path with a
drive is absolute. Paths parsed from well-formed input strings satisfy
this. -/
def Canonical (p : Path) : Prop :=
  ':' ∉ p.protocol ∧
  (∀ t ∈ p.directories, dirOk t) ∧
  (p.filename = [] ∨ dirOk p.filename) ∧
  '#' ∉ p.portion ∧
  p.drive.all Char.isAlpha = true ∧
  (p.drive.isSome = true → p.absolute = true)

instance : DecidablePred Canonical := fun p => by unfold Canonical; infer_instance

/-- The paths obtainable through the public construction surface of the
class: parsing a string (the `Path(const char*)` / `Path(const String&)`
constructors) and the six composition operators. The copy constructor
and assignment reproduce an existing value and add nothing. -/
inductive Constructed : Path → Prop where
  | ofParse (s : Str) : Constructed (parse s)
  | ofDivPath {a b : Path} : Constructed a → Constructed b →
      Constructed (opDivPath a b)
  | ofDivStr {a : Path} (s : Str) : Constructed a → Constructed (opDivStr a s)
  | ofDivCStr {a : Path} (s : Str) : Constructed a → Constructed (opDivCStr a s)
  | ofDivAssignPath {a b : Path} : Constructed a → Constructed b →
      Constructed (opDivAssignPath a b)
  | ofDivAssignStr {a : Path} (s : Str) : Constructed a →
      Constructed (opDivAssignStr a s)
  | ofDivAssignCStr {a : Path} (s : Str) : Constructed a →
      Constructed (opDivAssignCStr a s)

/-- Modelled from the spec (§5): each read accessor viewed as a state
transformer on the receiver, returning its value together with the
receiver's post-call state. The spec fixes the post-call state: read
operations never mutate. The header marks every read accessor `const`
except `getOSString`, whose body is not in the source tree, so its frame
behaviour too is taken from §5. -/
def getOSStringCall (p : Path) : Str × Path := (p.getOSString, p)

def getStringCall (p : Path) : Str × Path := (p.getString, p)

def getFilenameCall (p : Path) : Str × Path := (p.getFilename, p)

def getFilenameOnlyCall (p : Path) : Str × Path := (p.getFilenameOnly, p)

def getExtensionCall (p : Path) : Str × Path := (p.getExtension, p)

def getPortionCall (p : Path) : Str × Path := (p.getPortion, p)

def getProtocolCall (p : Path) : Str × Path := (p.getProtocol, p)

def getDriveCall (p : Path) : Option Char × Path := (p.getDrive, p)

def getDirectoryCall (p : Path) (n : Nat) : Option Str × Path :=
  (p.getDirectory n, p)

def getNbDirectoriesCall (p : Path) : Nat × Path := (p.getNbDirectories, p)

def getParentCall (p : Path) : Path × Path := (p.getParent, p)

def hasFilenameCall (p : Path) : Bool × Path := (p.hasFilename, p)

def hasExtensionCall (p : Path) : Bool × Path := (p.hasExtension, p)

def hasPortionCall (p : Path) : Bool × Path := (p.hasPortion, p)

def hasDriveCall (p : Path) : Bool × Path := (p.hasDrive, p)

def isAbsoluteCall (p : Path) : Bool × Path := (p.isAbsolute, p)

-- Sanity examples on the model.
example : (parse (str "a/b/../c")).directories = [str "a"] := by decide
example : (parse (str "a/b/../c")).filename = str "c" := by decide
example : (parse (str "C:/Games/g.exe")).protocol = str "file" := by decide
example : (parse (str "C:/Games/g.exe")).drive = some 'C' := by decide
example : (parse (str "zip://a.zip#b.txt")).protocol = str "zip" := by decide
example : (parse (str "zip://a.zip#b.txt")).portion = str "b.txt" := by decide
example : parse (str "") = BAD_PATH := by decide
example : (parse (str "file:///home/f/file.nxs")).absolute = true := by decide
example :
    (opDivStr (parse (str "a/b/")) (str "c.txt")).getFilename = str "c.txt" := by
  decide

/-! ### Splitting lemmas -/

theorem splitProto_eq_none {s : Str} (h : ':' ∉ s) : splitProto s = none := by
  induction s with
  | nil => rfl
  | cons c rest ih =>
    have hc : c ≠ ':' := fun hc => h (hc ▸ List.mem_cons_self c rest)
    have hr : ':' ∉ rest := fun hm => h (List.mem_cons_of_mem c hm)
    simp [splitProto, hc, ih hr]

theorem splitProto_append {a : Str} (b : Str) (h : ':' ∉ a) :
    splitProto (a ++ ':' :: '/' :: '/' :: b) = some (a, b) := by
  induction a with
  | nil => simp [splitProto]
  | cons c a' ih =>
    have hc : c ≠ ':' := fun hc => h (hc ▸ List.mem_cons_self c a')
    have ha : ':' ∉ a' := fun hm => h (List.mem_cons_of_mem c hm)
    simp [splitProto, hc, ih ha]

theorem splitLastCh_eq_none {ch : Char} {s : Str} (h : ch ∉ s) :
    splitLastCh ch s = none := by
  induction s with
  | nil => rfl
  | cons c rest ih =>
    have hc : c ≠ ch := fun hc => h (hc ▸ List.mem_cons_self c rest)
    have hr : ch ∉ rest := fun hm => h (List.mem_cons_of_mem c hm)
    simp [splitLastCh, ih hr, hc]

theorem splitLastCh_append {ch : Char} {a b : Str} (ha : ch ∉ a) (hb : ch ∉ b) :
    splitLastCh ch (a ++ ch :: b) = some (a, b) := by
  induction a with
  | nil => simp [splitLastCh, splitLastCh_eq_none hb]
  | cons c a' ih =>
    have ha' : ch ∉ a' := fun hm => ha (List.mem_cons_of_mem c hm)
    simp [splitLastCh, ih ha']

theorem splitDrive_cons_not_alpha {c : Char} (r : Str) (h : ¬ c.isAlpha) :
    splitDrive (c :: r) = none := by
  cases r with
  | nil => rfl
  | cons c2 r' => simp [splitDrive, h]

theorem splitDrive_append_eq_none {s r : Str} (hne : s ≠ []) (hs : ':' ∉ s)
    (hr : r.head? ≠ some ':') : splitDrive (s ++ r) = none := by
  match s, hne with
  | [c], _ =>
    cases r with
    | nil => rfl
    | cons c2 r' =>
      have h2 : c2 ≠ ':' := fun h => hr (by simp [h])
      simp [splitDrive, h2]
  | c :: c2 :: s', _ =>
    have h2 : c2 ≠ ':' :=
      fun h => hs (h ▸ List.mem_cons_of_mem c (List.mem_cons_self c2 s'))
    simp [splitDrive, h2]

theorem splitDrive_no_colon {s : Str} (h : ':' ∉ s) : splitDrive s = none := by
  match s with
  | [] => rfl
  | [_] => rfl
  | c :: c2 :: r =>
    have h2 : c2 ≠ ':' :=
      fun hc => h (hc ▸ List.mem_cons_of_mem c (List.mem_cons_self c2 r))
    simp [splitDrive, h2]

theorem headIsSlash_eq_false {s : Str} (h : '/' ∉ s) : headIsSlash s = false := by
  cases s with
  | nil => rfl
  | cons c t =>
    have hc : c ≠ '/' := fun hc => h (hc ▸ List.mem_cons_self c t)
    simp [headIsSlash, hc]

theorem splitSlash_append {t : Str} (r : Str) (h : '/' ∉ t) :
    splitSlash (t ++ '/' :: r) = t :: splitSlash r := by
  induction t with
  | nil => simp [splitSlash]
  | cons c t' ih =>
    have hc : c ≠ '/' := fun hc => h (hc ▸ List.mem_cons_self c t')
    have ht : '/' ∉ t' := fun hm => h (List.mem_cons_of_mem c hm)
    simp [splitSlash, hc, ih ht]

theorem splitSlash_no_slash {t : Str} (h : '/' ∉ t) : splitSlash t = [t] := by
  induction t with
  | nil => rfl
  | cons c t' ih =>
    have hc : c ≠ '/' := fun hc => h (hc ▸ List.mem_cons_self c t')
    have ht : '/' ∉ t' := fun hm => h (List.mem_cons_of_mem c hm)
    simp only [splitSlash, if_neg hc, ih ht]

theorem splitSlash_dirsString {dirs : List Str} {fn : Str}
    (hd : ∀ d ∈ dirs, '/' ∉ d) (hf : '/' ∉ fn) :
    splitSlash (dirsString dirs ++ fn) = dirs ++ [fn] := by
  induction dirs with
  | nil => simpa [dirsString] using splitSlash_no_slash hf
  | cons d ds ih =>
    have hd1 : '/' ∉ d := hd d (List.mem_cons_self d ds)
    have hds : ∀ x ∈ ds, '/' ∉ x := fun x hx => hd x (List.mem_cons_of_mem d hx)
    have : dirsString (d :: ds) ++ fn = d ++ '/' :: (dirsString ds ++ fn) := by
      simp [dirsString]
    rw [this, splitSlash_append _ hd1, ih hds, List.cons_append]

/-! ### Resolver lemmas -/

theorem resolve_nil (acc : List Str) : resolve acc [] = acc := rfl

theorem resolve_cons (acc : List Str) (t : Str) (ts : List Str) :
    resolve acc (t :: ts) = resolve (resolveStep acc t) ts := rfl

theorem resolve_empty_token (acc : List Str) (ts : List Str) :
    resolve acc ([] :: ts) = resolve acc ts := by
  simp [resolve_cons, resolveStep]

theorem resolve_append_ok {ts : List Str} (acc : List Str)
    (h : ∀ t ∈ ts, t ≠ [] ∧ t ≠ ['.', '.']) : resolve acc ts = acc ++ ts := by
  induction ts generalizing acc with
  | nil => simp [resolve_nil]
  | cons t ts' ih =>
    have h1 := h t (List.mem_cons_self t ts')
    have h2 : ∀ x ∈ ts', x ≠ [] ∧ x ≠ ['.', '.'] :=
      fun x hx => h x (List.mem_cons_of_mem t hx)
    rw [resolve_cons, resolveStep, if_neg h1.1, if_neg h1.2, ih _ h2,
      List.append_assoc, List.singleton_append]

theorem resolve_concat_empty (acc : List Str) (ts : List Str) :
    resolve acc (ts ++ [[]]) = resolve acc ts := by
  simp [resolve, List.foldl_append, resolveStep]

theorem mem_of_mem_dropLast {α : Type} {a : α} {l : List α}
    (h : a ∈ l.dropLast) : a ∈ l := List.dropLast_subset l h

theorem dotdot_not_mem_resolve {acc : List Str} (ts : List Str)
    (h : ['.', '.'] ∉ acc) : ['.', '.'] ∉ resolve acc ts := by
  induction ts generalizing acc with
  | nil => exact h
  | cons t ts' ih =>
    rw [resolve_cons]
    refine ih ?_
    unfold resolveStep
    split
    · exact h
    · split
      next => exact fun hm => h (mem_of_mem_dropLast hm)
      next hne2 =>
        intro hm
        rcases List.mem_append.mp hm with hm | hm
        · exact h hm
        · exact hne2 (List.mem_singleton.mp hm).symm

/-! ### Canonical paths and the shape of their formatted strings -/

theorem mem_dirsString {c : Char} {l : List Str} (h : c ∈ dirsString l) :
    c = '/' ∨ ∃ d ∈ l, c ∈ d := by
  induction l with
  | nil => simp [dirsString] at h
  | cons d ds ih =>
    rw [show dirsString (d :: ds) = d ++ '/' :: dirsString ds from by
      simp [dirsString]] at h
    rcases List.mem_append.mp h with h | h
    · exact Or.inr ⟨d, List.mem_cons_self d ds, h⟩
    · rcases List.mem_cons.mp h with rfl | h
      · exact Or.inl rfl
      · rcases ih h with h | ⟨d2, hd2, hc⟩
        · exact Or.inl h
        · exact Or.inr ⟨d2, List.mem_cons_of_mem d hd2, hc⟩

theorem hash_not_mem_body {dirs : List Str} {fn : Str} (sabs : Bool)
    (hdirs : ∀ t ∈ dirs, dirOk t) (hfn : fn = [] ∨ dirOk fn) :
    '#' ∉ absString sabs ++ dirsString dirs ++ fn := by
  intro hm
  rcases List.mem_append.mp hm with hm | hm
  · rcases List.mem_append.mp hm with hm | hm
    · cases sabs <;> simp [absString] at hm
    · rcases mem_dirsString hm with hm | ⟨d, hd, hc⟩
      · exact absurd hm (by decide)
      · exact (hdirs d hd).2.2.1 hc
  · rcases hfn with rfl | hok
    · simp at hm
    · exact hok.2.2.1 hm

theorem body_no_drive {dirs : List Str} {fn portion : Str}
    (hdirs : ∀ t ∈ dirs, dirOk t) (hfn : fn = [] ∨ dirOk fn) :
    splitDrive (dirsString dirs ++ fn ++ portionString portion) = none ∧
    headIsSlash (dirsString dirs ++ fn ++ portionString portion) = false := by
  cases dirs with
  | cons d ds =>
    have hd := hdirs d (List.mem_cons_self d ds)
    have hrw : dirsString (d :: ds) ++ fn ++ portionString portion
        = d ++ '/' :: (dirsString ds ++ fn ++ portionString portion) := by
      simp [dirsString]
    rw [hrw]
    refine ⟨splitDrive_append_eq_none hd.1 hd.2.2.2.1 (by simp), ?_⟩
    cases d with
    | nil => exact absurd rfl hd.1
    | cons c t =>
      have hc : c ≠ '/' := fun hc => hd.2.1 (hc ▸ List.mem_cons_self c t)
      simp [headIsSlash, hc]
  | nil =>
    rcases hfn with rfl | hok
    · by_cases hp : portion = []
      · simp [dirsString, portionString, hp, splitDrive, headIsSlash]
      · simp only [dirsString, portionString, if_neg hp, List.foldr_nil,
          List.nil_append]
        refine ⟨splitDrive_cons_not_alpha _ (by decide), by simp [headIsSlash]⟩
    · have hrw : dirsString [] ++ fn ++ portionString portion
          = fn ++ portionString portion := by simp [dirsString]
      rw [hrw]
      have hhead : (portionString portion).head? ≠ some ':' := by
        by_cases hp : portion = [] <;> simp [portionString, hp]
      refine ⟨splitDrive_append_eq_none hok.1 hok.2.2.2.1 hhead, ?_⟩
      cases fn with
      | nil => exact absurd rfl hok.1
      | cons c t =>
        have hc : c ≠ '/' := fun hc => hok.2.1 (hc ▸ List.mem_cons_self c t)
        simp [headIsSlash, hc]

theorem hashSplit_body (sabs : Bool) {dirs : List Str} {fn portion : Str}
    (hdirs : ∀ t ∈ dirs, dirOk t) (hfn : fn = [] ∨ dirOk fn)
    (hport : '#' ∉ portion) :
    hashSplit (absString sabs ++ dirsString dirs ++ fn ++ portionString portion)
      = (absString sabs ++ dirsString dirs ++ fn, portion) := by
  by_cases hp : portion = []
  · subst hp
    rw [show portionString [] = [] from rfl, List.append_nil, hashSplit,
      splitLastCh_eq_none (hash_not_mem_body sabs hdirs hfn)]
  · rw [show portionString portion = '#' :: portion from by
      simp [portionString, hp], hashSplit,
      splitLastCh_append (hash_not_mem_body sabs hdirs hfn) hport]

theorem splitSlash_body (sabs : Bool) {dirs : List Str} {fn : Str}
    (hdirs : ∀ t ∈ dirs, dirOk t) (hfn : fn = [] ∨ dirOk fn) :
    splitSlash (absString sabs ++ dirsString dirs ++ fn)
      = (if sabs then [([] : Str)] else []) ++ dirs ++ [fn] := by
  have hslashd : ∀ d ∈ dirs, '/' ∉ d := fun d hd => (hdirs d hd).2.1
  have hslashf : '/' ∉ fn := by
    rcases hfn with rfl | hok
    · simp
    · exact hok.2.1
  cases sabs with
  | false => simpa [absString] using splitSlash_dirsString hslashd hslashf
  | true =>
    have hrw : absString true ++ dirsString dirs ++ fn
        = '/' :: (dirsString dirs ++ fn) := by simp [absString]
    rw [hrw]
    simp [splitSlash, splitSlash_dirsString hslashd hslashf]

theorem dirFile_body (sabs : Bool) {dirs : List Str} {fn : Str}
    (hdirs : ∀ t ∈ dirs, dirOk t) (hfn : fn = [] ∨ dirOk fn) :
    resolve []
        (dirTokensAndFile (splitSlash (absString sabs ++ dirsString dirs ++ fn))).1
      = dirs ∧
    (dirTokensAndFile (splitSlash (absString sabs ++ dirsString dirs ++ fn))).2
      = fn := by
  rw [splitSlash_body sabs hdirs hfn]
  have hok : ∀ t ∈ dirs, t ≠ [] ∧ t ≠ ['.', '.'] :=
    fun t ht => ⟨(hdirs t ht).1, (hdirs t ht).2.2.2.2.2⟩
  have hpredirs : resolve []
      ((if sabs then [([] : Str)] else []) ++ dirs) = dirs := by
    cases sabs with
    | false =>
      rw [if_neg (by simp), List.nil_append, resolve_append_ok [] hok,
        List.nil_append]
    | true =>
      rw [if_pos rfl, List.singleton_append, resolve_empty_token,
        resolve_append_ok [] hok, List.nil_append]
  have hlast : ((if sabs then [([] : Str)] else []) ++ dirs ++ [fn]).getLastD []
      = fn := List.getLastD_concat _ _ _
  have hdropl : ((if sabs then [([] : Str)] else []) ++ dirs ++ [fn]).dropLast
      = (if sabs then [([] : Str)] else []) ++ dirs := List.dropLast_concat
  rcases hfn with rfl | hfnok
  · rw [dirTokensAndFile, hlast, if_pos (Or.inl rfl)]
    exact ⟨by rw [resolve_concat_empty _ _, hpredirs], rfl⟩
  · rw [dirTokensAndFile, hlast,
      if_neg (by simp [hfnok.1, hfnok.2.2.2.2.1, hfnok.2.2.2.2.2]), hdropl]
    exact ⟨hpredirs, rfl⟩

/-- The central round-trip lemma: re-parsing the canonical string of a
well-formed path recovers it exactly. -/
theorem parse_getString_mk (proto : Str) (drive : Option Char)
    (dirs : List Str) (fn portion : Str) (sabs : Bool)
    (hproto : ':' ∉ proto) (hdirs : ∀ t ∈ dirs, dirOk t)
    (hfn : fn = [] ∨ dirOk fn) (hport : '#' ∉ portion)
    (hdrv : drive.all Char.isAlpha = true)
    (habsd : drive.isSome = true → sabs = true) :
    parse (Path.mk proto drive dirs fn portion sabs).getString
      = Path.mk proto drive dirs fn portion sabs := by
  obtain ⟨hres, hfile⟩ := dirFile_body sabs hdirs hfn
  have hhash := hashSplit_body sabs hdirs hfn hport
  have hne : (Path.mk proto drive dirs fn portion sabs).getString ≠ [] := by
    simp [Path.getString]
  have hps : protoSplit (Path.mk proto drive dirs fn portion sabs).getString
      = (proto, driveString drive ++ absString sabs ++ dirsString dirs ++ fn ++
          portionString portion) := by
    rw [Path.getString, protoSplit, splitProto_append _ hproto]
  cases drive with
  | some d =>
    have hd : d.isAlpha := by simpa [Option.all] using hdrv
    have hab : sabs = true := habsd rfl
    subst hab
    have hds : driveSplit (driveString (some d) ++ absString true ++
        dirsString dirs ++ fn ++ portionString portion)
        = (some d,
           absString true ++ dirsString dirs ++ fn ++ portionString portion) := by
      rw [show driveString (some d) ++ absString true ++ dirsString dirs ++ fn ++
            portionString portion
          = d :: ':' ::
            (absString true ++ dirsString dirs ++ fn ++ portionString portion)
        from by simp [driveString], driveSplit, splitDrive, if_pos ⟨rfl, hd⟩]
    simp only [parse, if_neg hne, hps, hds, hhash, hres, hfile]
    simp
  | none =>
    have hds : driveSplit (driveString none ++ absString sabs ++
        dirsString dirs ++ fn ++ portionString portion)
        = (none,
           absString sabs ++ dirsString dirs ++ fn ++ portionString portion) ∧
        headIsSlash (driveString none ++ absString sabs ++
          dirsString dirs ++ fn ++ portionString portion) = sabs := by
      cases sabs with
      | true =>
        rw [show driveString none ++ absString true ++ dirsString dirs ++ fn ++
              portionString portion
            = '/' :: (dirsString dirs ++ fn ++ portionString portion)
          from by simp [driveString, absString, List.append_assoc]]
        refine ⟨?_, by simp [headIsSlash]⟩
        rw [driveSplit, splitDrive_cons_not_alpha _ (by decide)]
        simp [absString, List.append_assoc]
      | false =>
        obtain ⟨hnod, hhead⟩ := @body_no_drive dirs fn portion hdirs hfn
        rw [show driveString none ++ absString false ++ dirsString dirs ++ fn ++
              portionString portion
            = dirsString dirs ++ fn ++ portionString portion
          from by simp [driveString, absString, List.append_assoc]]
        refine ⟨?_, hhead⟩
        rw [driveSplit, hnod]
        simp [absString, List.append_assoc]
    simp only [parse, if_neg hne, hps, hds.1, hds.2, hhash, hres, hfile]
    simp

/-- Round-trip for every canonical path value. -/
theorem parse_getString_of_canonical (p : Path) (h : Canonical p) :
    parse p.getString = p := by
  obtain ⟨proto, drive, dirs, fn, portion, sabs⟩ := p
  exact parse_getString_mk proto drive dirs fn portion sabs h.1 h.2.1 h.2.2.1
    h.2.2.2.1 h.2.2.2.2.1 h.2.2.2.2.2

/-- Parsing a single well-formed name token yields a relative path whose
only content is that token as its filename. -/
theorem parse_single_token {x : Str} (hx : dirOk x) :
    parse x = Path.mk fileProto none [] x [] false := by
  have h1 : protoSplit x = (fileProto, x) := by
    rw [protoSplit, splitProto_eq_none hx.2.2.2.1]
  have h2 : driveSplit x = (none, x) := by
    rw [driveSplit, splitDrive_no_colon hx.2.2.2.1]
  have h3 : hashSplit x = (x, []) := by
    rw [hashSplit, splitLastCh_eq_none hx.2.2.1]
  have h4 : splitSlash x = [x] := splitSlash_no_slash hx.2.1
  have h5 : dirTokensAndFile [x] = ([], x) := by
    rw [dirTokensAndFile]
    have hlast : ([x] : List Str).getLastD [] = x := rfl
    rw [hlast, if_neg (by simp [hx.1, hx.2.2.2.2.1, hx.2.2.2.2.2])]
    rfl
  have h6 : headIsSlash x = false := headIsSlash_eq_false hx.2.1
  simp only [parse, if_neg hx.1, h1, h2, h3, h4, h5, h6]
  rfl

/-! ### The claims -/

/-- C1: for every Path built by parsing a well-formed string without
redundant `..` segments (formalised: the parsed path is `Canonical`),
re-parsing its canonical string yields an equal Path:
`parse(p.getString()) == p`. -/
theorem c1_roundtrip (s : Str) (h : Canonical (parse s)) :
    parse ((parse s).getString) = parse s :=
  parse_getString_of_canonical (parse s) h

theorem c1_roundtrip_witness :
    Canonical (parse (str "zip://C:/Games/g.exe#poem.txt")) ∧
    parse ((parse (str "zip://C:/Games/g.exe#poem.txt")).getString)
      = parse (str "zip://C:/Games/g.exe#poem.txt") :=
  ⟨by decide, c1_roundtrip _ (by decide)⟩

/-- C2 counterexample: the claimed equalities fail on the parser of
§4.1, because the final token of `a/b/../c` (no trailing slash) is the
filename, not a directory: the directories are `["a"]`, and for `../a`
they are `[]`. -/
theorem c2_resolution_counterexample :
    (parse (str "a/b/../c")).directories ≠ [str "a", str "c"] ∧
    (parse (str "../a")).directories ≠ [str "a"] := by decide

/-- C2 amended: `..` is resolved left to right, popping the last
accepted directory, and a leading `..` with nothing to pop is dropped;
but the final slash-free token is the filename, so
`parse("a/b/../c")` has directories `["a"]` with filename `"c"` and
`parse("../a")` has directories `[]` with filename `"a"`; the claimed
directory sequences arise for the directory-form inputs `a/b/../c/`
and `../a/`. -/
theorem c2_resolution_amended :
    (parse (str "a/b/../c")).directories = [str "a"] ∧
    (parse (str "a/b/../c")).getFilename = str "c" ∧
    (parse (str "../a")).directories = ([] : List Str) ∧
    (parse (str "../a")).getFilename = str "a" ∧
    (parse (str "a/b/../c/")).directories = [str "a", str "c"] ∧
    (parse (str "../a/")).directories = [str "a"] ∧
    (∀ acc ts, resolve acc (str ".." :: ts) = resolve acc.dropLast ts) ∧
    (∀ ts, resolve [] (str ".." :: ts) = resolve [] ts) :=
  ⟨by decide, by decide, by decide, by decide, by decide, by decide,
   fun acc ts => rfl, fun ts => rfl⟩

/-- C3: every Path reachable through construction from a string and the
composition operators has no literal `..` entry among its
directories. -/
theorem c3_no_dotdot_invariant (p : Path) (h : Constructed p) :
    ['.', '.'] ∉ p.directories := by
  induction h with
  | ofParse s =>
    by_cases hs : s = []
    · subst hs
      simp [parse, BAD_PATH]
    · simp only [parse, if_neg hs]
      exact dotdot_not_mem_resolve _ (by simp)
  | ofDivPath ha hb iha ihb => exact dotdot_not_mem_resolve _ iha
  | ofDivStr s ha iha => exact dotdot_not_mem_resolve _ iha
  | ofDivCStr s ha iha => exact dotdot_not_mem_resolve _ iha
  | ofDivAssignPath ha hb iha ihb => exact dotdot_not_mem_resolve _ iha
  | ofDivAssignStr s ha iha => exact dotdot_not_mem_resolve _ iha
  | ofDivAssignCStr s ha iha => exact dotdot_not_mem_resolve _ iha

theorem c3_no_dotdot_invariant_witness :
    ['.', '.'] ∉ (opDivStr (parse (str "a/../b/")) (str "../c.txt")).directories :=
  c3_no_dotdot_invariant _ (Constructed.ofDivStr _ (Constructed.ofParse _))

/-- C4: `a / b` takes protocol, drive and absolute flag from `a`, its
directories are `a`'s directories followed by `a`'s filename demoted to
a directory entry (when present) and `b`'s directories resolved against
the growing sequence, and its filename, extension and portion come from
`b`; in particular `(Path("a/b/") / "c.txt").getFilename() == "c.txt"`
with `"b"` in its directory chain. -/
theorem c4_compose_components :
    (∀ a b : Path,
      (opDivPath a b).protocol = a.protocol ∧
      (opDivPath a b).drive = a.drive ∧
      (opDivPath a b).absolute = a.absolute ∧
      (opDivPath a b).filename = b.filename ∧
      (opDivPath a b).getExtension = b.getExtension ∧
      (opDivPath a b).portion = b.portion ∧
      (opDivPath a b).directories =
        resolve a.directories
          ((if a.filename = [] then [] else [a.filename]) ++ b.directories)) ∧
    (opDivStr (parse (str "a/b/")) (str "c.txt")).getFilename = str "c.txt" ∧
    str "b" ∈ (opDivStr (parse (str "a/b/")) (str "c.txt")).directories ∧
    (opDivStr (parse (str "a/b/c.txt")) (str "d.txt")).directories
      = [str "a", str "b", str "c.txt"] :=
  ⟨fun a b => ⟨rfl, rfl, rfl, rfl, rfl, rfl, rfl⟩, by decide, by decide,
   by decide⟩

/-- C5 counterexample: the claim fails for a directory path carrying a
portion: composition takes the (empty) portion from the right operand,
so `getParent` cannot restore the left operand's portion. -/
theorem c5_parent_counterexample :
    (parse (str "zip://a/#q")).filename = [] ∧
    (opDivStr (parse (str "zip://a/#q")) (str "x")).getParent
      ≠ parse (str "zip://a/#q") := by decide

/-- C5 amended: for a directory path `p` (no filename) that also has no
portion, and a single-segment name `x` (non-empty, free of `/ # :`, not
`.` or `..`), `(p / x).getParent() == p`. -/
theorem c5_parent_amended (p : Path) (x : Str)
    (hfn : p.filename = []) (hport : p.portion = []) (hx : dirOk x) :
    (opDivStr p x).getParent = p := by
  obtain ⟨proto, drive, dirs, fn, portion, sabs⟩ := p
  have hfn' : fn = [] := hfn
  have hport' : portion = [] := hport
  subst hfn' hport'
  rw [opDivStr, parse_single_token hx, join]
  rw [show resolve dirs ((if ([] : Str) = [] then [] else [([] : Str)]) ++ [])
      = dirs from rfl]
  simp [Path.getParent, hx.1]

theorem c5_parent_amended_witness :
    (opDivStr (parse (str "a/b/")) (str "c")).getParent = parse (str "a/b/") :=
  c5_parent_amended _ _ (by decide) (by decide) (by decide)

/-- C6 counterexample: the input `://a` is non-empty, yet its explicit
protocol prefix before the first `://` is the empty string, so the
parsed protocol is empty and neither claimed behaviour (non-emptiness)
holds. -/
theorem c6_protocol_counterexample :
    str "://a" ≠ [] ∧ (parse (str "://a")).protocol = [] := by decide

/-- C6 amended: for every non-empty string whose protocol prefix is
non-trivial (either no `://` occurs, or the prefix before the first
`://` is non-empty), the parsed protocol is never empty: it is the
explicit prefix when `://` is present and the default `file` otherwise;
`parse("C:/Games/g.exe").protocol == "file"` and
`parse("zip://a.zip#b.txt").protocol == "zip"` with portion
`"b.txt"`. -/
theorem c6_protocol_amended :
    (∀ s : Str, s ≠ [] → (protoSplit s).1 ≠ [] →
      ((parse s).protocol ≠ [] ∧
       (parse s).protocol = (protoSplit s).1 ∧
       (splitProto s = none → (parse s).protocol = fileProto))) ∧
    (parse (str "C:/Games/g.exe")).protocol = str "file" ∧
    (parse (str "zip://a.zip#b.txt")).protocol = str "zip" ∧
    (parse (str "zip://a.zip#b.txt")).portion = str "b.txt" := by
  refine ⟨fun s hne hpr => ?_, by decide, by decide, by decide⟩
  have hp : (parse s).protocol = (protoSplit s).1 := by
    simp [parse, if_neg hne]
  refine ⟨hp ▸ hpr, hp, fun hnone => ?_⟩
  rw [hp, protoSplit, hnone]

theorem c6_protocol_amended_witness :
    (parse (str "zip://a.zip#b.txt")).protocol ≠ [] :=
  (c6_protocol_amended.1 (str "zip://a.zip#b.txt") (by decide) (by decide)).1

/-- C7: `getDirectory(n)` signals a defined out-of-range error (the
`none` result of the modelled error channel) whenever
`n >= getNbDirectories()`, and for in-range `n` returns the directory at
depth `n` counted from the leaf end (0 = innermost). -/
theorem c7_getDirectory_total (p : Path) (n : Nat) :
    (p.getNbDirectories ≤ n → p.getDirectory n = none) ∧
    (∀ h : n < p.getNbDirectories,
      p.getDirectory n = some (p.directories.get
        ⟨p.directories.length - 1 - n, by
          simp only [Path.getNbDirectories] at h; omega⟩)) := by
  constructor
  · intro h
    rw [Path.getDirectory]
    exact List.get?_len_le (by simpa using h)
  · intro h
    have h' : n < p.directories.length := by
      simpa [Path.getNbDirectories] using h
    have hr : n < p.directories.reverse.length := by simpa using h'
    rw [Path.getDirectory, List.get?_eq_get hr]
    congr 1
    rw [List.get_eq_getElem, List.get_eq_getElem, List.getElem_reverse]

theorem c7_getDirectory_total_witness :
    (parse (str "c:/Program Files/My Game/Game.exe")).getDirectory 5 = none ∧
    (parse (str "c:/Program Files/My Game/Game.exe")).getDirectory 0
      = some (str "My Game") ∧
    (parse (str "c:/Program Files/My Game/Game.exe")).getDirectory 1
      = some (str "Program Files") :=
  ⟨(c7_getDirectory_total _ 5).1 (by decide),
   ((c7_getDirectory_total _ 0).2 (by decide)).trans (by decide),
   ((c7_getDirectory_total _ 1).2 (by decide)).trans (by decide)⟩

/-- C8: the empty string parses to the `BAD_PATH` sentinel: protocol
empty-marker, all other fields empty, no drive, and not absolute. -/
theorem c8_empty_string_bad_path :
    parse [] = BAD_PATH ∧ BAD_PATH.protocol = [] ∧ BAD_PATH.drive = none ∧
    BAD_PATH.directories = [] ∧ BAD_PATH.filename = [] ∧
    BAD_PATH.portion = [] ∧ BAD_PATH.absolute = false := by decide

/-- C9: every read accessor, `getOSString` included, leaves every field
of the receiver unchanged; the post-call state of each modelled accessor
call equals the receiver. -/
theorem c9_readers_preserve_fields (p : Path) (n : Nat) :
    (getOSStringCall p).2.protocol = p.protocol ∧
    (getOSStringCall p).2.drive = p.drive ∧
    (getOSStringCall p).2.directories = p.directories ∧
    (getOSStringCall p).2.filename = p.filename ∧
    (getOSStringCall p).2.getExtension = p.getExtension ∧
    (getOSStringCall p).2.portion = p.portion ∧
    (getOSStringCall p).2.absolute = p.absolute ∧
    (getStringCall p).2 = p ∧
    (getFilenameCall p).2 = p ∧
    (getFilenameOnlyCall p).2 = p ∧
    (getExtensionCall p).2 = p ∧
    (getPortionCall p).2 = p ∧
    (getProtocolCall p).2 = p ∧
    (getDriveCall p).2 = p ∧
    (getDirectoryCall p n).2 = p ∧
    (getNbDirectoriesCall p).2 = p ∧
    (getParentCall p).2 = p ∧
    (hasFilenameCall p).2 = p ∧
    (hasExtensionCall p).2 = p ∧
    (hasPortionCall p).2 = p ∧
    (hasDriveCall p).2 = p ∧
    (isAbsoluteCall p).2 = p :=
  ⟨rfl, rfl, rfl, rfl, rfl, rfl, rfl, rfl, rfl, rfl, rfl, rfl, rfl, rfl,
   rfl, rfl, rfl, rfl, rfl, rfl, rfl, rfl⟩

/-- C10: for every receiver, the in-place `/=` overloads leave the
receiver equal to what the corresponding `/` overload produces from its
prior state, and the `Path`, `String` and `char*` overloads agree on the
same textual content. -/
theorem c10_overload_equivalence (a b : Path) (s : Str) :
    opDivAssignPath a b = opDivPath a b ∧
    opDivAssignStr a s = opDivStr a s ∧
    opDivAssignCStr a s = opDivCStr a s ∧
    opDivStr a s = opDivPath a (parse s) ∧
    opDivCStr a s = opDivStr a s ∧
    opDivAssignStr a s = opDivAssignPath a (parse s) :=
  ⟨rfl, rfl, rfl, rfl, rfl, rfl⟩

end NxOgre
